import Mathlib

/-!
Verification of the snapshot scheduling and retention logic of
`backup_manager.py` (class `BackupManager`).

The embedding is shallow: Python dictionaries become association lists that
keep insertion order (as Python dicts do), Python string comparison becomes
an explicit lexicographic comparison on the character list of a `String`,
`datetime.date` arithmetic becomes a rata-die day count computed from the
`YYYY-MM-DD` date string, and the nondeterministic `datetime.today()` is an
explicit `today` parameter.  Fallible code (indexing an empty list raises
`IndexError`) is modelled with `Option`.
-/

/-- Python string comparison `a < b` on the underlying character lists:
lexicographic by code point, a strict prefix is smaller. -/
def listLt : List Char → List Char → Bool
  | [], [] => false
  | [], _ :: _ => true
  | _ :: _, [] => false
  | a :: as, b :: bs =>
    if a.toNat < b.toNat then true
    else if b.toNat < a.toNat then false
    else listLt as bs

/-- Python `a < b` on strings (timestamps compare this way in the source). -/
def pyLt (a b : String) : Bool := listLt a.data b.data

/-- First `n` characters of a string (structural, over the character list). -/
def strTake (s : String) (n : Nat) : String := ⟨s.data.take n⟩

/-- Drop the first `n` characters of a string. -/
def strDrop (s : String) (n : Nat) : String := ⟨s.data.drop n⟩

/-- Decimal value of a digit string, as `int(...)` reads the regex groups. -/
def digitsVal (cs : List Char) : Nat := cs.foldl (fun a c => 10 * a + (c.toNat - 48)) 0

/-- `get_date_time` group 1: the regex `(\d!{4}-\d!{2}-\d!{2})T...` anchored at the
start of the timestamp captures exactly its first 10 characters. -/
def getDate (ts : String) : String := strTake ts 10

/-- `get_date_time` group 2: the 12 characters `hh:mm:ss.mmm` after the `T`. -/
def getTime (ts : String) : String := strTake (strDrop ts 11) 12

/-- `BackupManager.get_date_time`: split a timestamp into date and time parts. -/
def get_date_time (ts : String) : String × String := (getDate ts, getTime ts)

/-- Year field of a `YYYY-MM-DD` date string. -/
def yearOf (d : String) : Nat := digitsVal (d.data.take 4)

/-- Month field of a `YYYY-MM-DD` date string. -/
def monthOf (d : String) : Nat := digitsVal ((d.data.drop 5).take 2)

/-- Day field of a `YYYY-MM-DD` date string. -/
def dayOf (d : String) : Nat := digitsVal ((d.data.drop 8).take 2)

/-- `datetime.strptime(date_str, "%Y-%m-%d").date()`: the calendar date a
date string denotes, as the triple of its numeric fields (two `datetime.date`
objects are equal exactly when these triples are equal). -/
def parse_date (d : String) : Nat × Nat × Nat := (yearOf d, monthOf d, dayOf d)

/-- Rata-die day number of a Gregorian `YYYY-MM-DD` date string; differences of
these values are what `(today - creation_date).days` computes. -/
def rataDie (d : String) : Int :=
  let y : Int := yearOf d
  let m : Int := monthOf d
  let day : Int := dayOf d
  let y2 : Int := if m ≤ 2 then y - 1 else y
  let m2 : Int := if m ≤ 2 then m + 12 else m
  365 * y2 + y2 / 4 - y2 / 100 + y2 / 400 + (153 * (m2 - 3) + 2) / 5 + day - 1

/-- `(today - creation_date).days` in `apply_retention_policy`. -/
def date_diff (today date : String) : Int := rataDie today - rataDie date

/-- A snapshot as listed by the gateway: the fields the source reads. -/
structure Snapshot where
  name : String
  id : String
  sourceDiskId : String
  creationTimestamp : String
deriving DecidableEq, Repr

/-- The per-snapshot record `construct_disks_snapshots_dict` stores in a
bucket: `{"name": ..., "id": ..., "time": ...}`. -/
structure SnapInfo where
  name : String
  id : String
  time : String
deriving DecidableEq, Repr

/-- The dictionary built for one snapshot inside
`construct_disks_snapshots_dict`. -/
def snapInfo (s : Snapshot) : SnapInfo := ⟨s.name, s.id, s.creationTimestamp⟩

/-- An instance as listed by the gateway: its name and the value of the
`backup` label. -/
structure Instance where
  name : String
  backup : String
deriving DecidableEq, Repr

/-- `BackupManager.get_last_backup_timestamp` applied to the extracted
timestamp column: start from the first element, replace it whenever a later
element compares greater under Python string comparison.  `none` models the
`IndexError` the source raises on an empty collection. -/
def get_last_backup_timestamp (ts : List String) : Option String :=
  match ts with
  | [] => none
  | t :: rest => some (rest.foldl (fun acc x => if pyLt acc x then x else acc) t)

/-- A Python `for` loop that appends the result of `f` for each element. -/
def cmap (l : List α) (f : α → List β) : List β :=
  match l with
  | [] => []
  | a :: t => f a ++ cmap t f

/-- Lookup in an insertion-ordered dictionary (`d[k]` / `k in d`). -/
def dlookup (l : List (String × β)) (k : String) : Option β :=
  match l with
  | [] => none
  | (k2, v) :: rest => if k2 = k then some v else dlookup rest k

/-- Python dict update: `if k not in d: d[k] = init` followed by mutating
`d[k]` with `f`.  An existing key keeps its position, a new key is appended. -/
def alUpd (l : List (String × β)) (k : String) (f : β → β) (init : β) : List (String × β) :=
  match l with
  | [] => [(k, f init)]
  | (k2, v) :: rest =>
    if k2 = k then (k2, f v) :: rest else (k2, v) :: alUpd rest k f init

/-- The nested dictionary `disk_id -> date -> list of SnapInfo`. -/
abbrev DiskIndex : Type := List (String × List (String × List SnapInfo))

/-- The body of the loop in `construct_disks_snapshots_dict` for one
snapshot: ensure the disk id key and the date key exist, then append the
snapshot record to the date bucket. -/
def addSnap (disks : DiskIndex) (s : Snapshot) : DiskIndex :=
  alUpd disks s.sourceDiskId
    (fun m => alUpd m (getDate s.creationTimestamp) (fun b => b ++ [snapInfo s]) [])
    []

/-- `BackupManager.construct_disks_snapshots_dict`: group the snapshot list
by source disk id and creation date, insertion order preserved. -/
def construct_disks_snapshots_dict (snapshots : List Snapshot) : DiskIndex :=
  snapshots.foldl addSnap []

/-- `BackupManager.delete_older_backups`, restricted to the delete calls it
issues: compute the group's latest timestamp, then delete every backup whose
timestamp is strictly smaller.  The empty case cannot be reached from
`apply_retention_policy` (groups there have length at least 2). -/
def delete_older_backups (backups : List SnapInfo) : List SnapInfo :=
  match get_last_backup_timestamp (backups.map (fun b => b.time)) with
  | none => []
  | some m => backups.filter (fun b => pyLt b.time m)

/-- Observable actions of `delete_older_backups`, in program order. -/
inductive Event where
  | deleteCall (name : String)
  | logDelete (id : String)
deriving DecidableEq, Repr

/-- The event trace of `delete_older_backups`: for each backup selected for
deletion the source first executes the gateway delete call and then logs
`Deleting snapshot {id}`. -/
def delete_older_trace (backups : List SnapInfo) : List Event :=
  match get_last_backup_timestamp (backups.map (fun b => b.time)) with
  | none => []
  | some m =>
    cmap backups (fun b =>
      if pyLt b.time m then [Event.deleteCall b.name, Event.logDelete b.id] else [])

/-- The `date_diff < 7` branch of the date loop in `apply_retention_policy`:
a same-day bucket is deduplicated only when it holds more than one backup. -/
def day_rule (today date : String) (bucket : List SnapInfo) : List SnapInfo :=
  if date_diff today date < 7 then
    if bucket.length > 1 then delete_older_backups bucket else []
  else []

/-- Whether a date bucket reaches the `elif date_diff < 14` arm of the date
loop: the `if date_diff < 7` arm was not taken and `date_diff < 14` holds. -/
def weekDate (today date : String) : Bool :=
  if date_diff today date < 7 then false
  else if date_diff today date < 14 then true
  else false

/-- The `last_week_backups` list collected by the `elif date_diff < 14`
branch, in date-iteration order. -/
def week_pool (today : String) (m : List (String × List SnapInfo)) : List SnapInfo :=
  cmap m (fun e => if weekDate today e.1 then e.2 else [])

/-- Delete calls issued for one disk of the index: the per-day rule over each
date bucket, then the cross-date pool rule over `last_week_backups`. -/
def disk_deletions (today : String) (m : List (String × List SnapInfo)) : List SnapInfo :=
  cmap m (fun e => day_rule today e.1 e.2) ++
    (if (week_pool today m).length > 1 then delete_older_backups (week_pool today m) else [])

/-- `BackupManager.apply_retention_policy`: the snapshots it deletes, over
the whole disk index, for a given value of `datetime.today().date()`. -/
def apply_retention_policy (today : String) (snapshots : List Snapshot) : List SnapInfo :=
  cmap (construct_disks_snapshots_dict snapshots) (fun e => disk_deletions today e.2)

/-- Snapshot collection after a retention run: the gateway deleted every
snapshot whose name was in a delete call. -/
def surviving (today : String) (snapshots : List Snapshot) : List Snapshot :=
  snapshots.filter (fun s =>
    ¬ (apply_retention_policy today snapshots).any (fun i => i.name = s.name))

/-- Per-instance outcome of the scheduling decision in `manage_snapshot`. -/
inductive Decision where
  | notApplicable
  | skipped
  | creating
deriving DecidableEq, Repr

/-- The decision `manage_snapshot` takes for one instance: instances without
`backup == "true"` are left alone; otherwise the latest timestamp over ALL
snapshots of the project is taken, and the instance is skipped exactly when
`(last_backup_date == today or cheat_skip) and not cheat_create`.  `none`
models the `IndexError` of `get_last_backup_timestamp` on an empty snapshot
collection. -/
def decide_backup (inst : Instance) (snapshots : List Snapshot) (today : String)
    (cheat_create cheat_skip : Bool) : Option Decision :=
  if inst.backup = "true" then
    match get_last_backup_timestamp (snapshots.map (fun s => s.creationTimestamp)) with
    | none => none
    | some last =>
      if (parse_date (getDate last) = parse_date today ∨ cheat_skip = true) ∧
          cheat_create = false then
        some Decision.skipped
      else some Decision.creating
  else some Decision.notApplicable

/-- Result of a `manage_snapshot` run: the instances for which a creation
task was launched via `asyncio.create_task`, in order, and the tasks awaited
at the end of the run (the single `self.task` slot, overwritten on every
launch, awaited once if not `None`). -/
structure SnapshotRun where
  launched : List String
  awaited : List String
deriving DecidableEq, Repr

/-- The instance loop of `manage_snapshot`: `task` is the `self.task` slot,
replaced by the newest task on every launch. -/
def snapshot_loop (snapshots : List Snapshot) (today : String) (cc cs : Bool) :
    List Instance → Option String → Option (List String × Option String)
  | [], task => some ([], task)
  | i :: rest, task =>
    match decide_backup i snapshots today cc cs with
    | none => none
    | some Decision.creating =>
      match snapshot_loop snapshots today cc cs rest (some i.name) with
      | none => none
      | some (l, t) => some (i.name :: l, t)
    | some _ => snapshot_loop snapshots today cc cs rest task

/-- `BackupManager.manage_snapshot`: run the decision loop over the listed
instances, then await `self.task` (the last launched task) if it is set. -/
def manage_snapshot (instances : List Instance) (snapshots : List Snapshot)
    (today : String) (cc cs : Bool) : Option SnapshotRun :=
  match snapshot_loop snapshots today cc cs instances none with
  | none => none
  | some (l, t) => some ⟨l, t.toList⟩

/-- The name an instance contributes to the launched-task list. -/
def creating_name (snapshots : List Snapshot) (today : String) (cc cs : Bool)
    (i : Instance) : Option String :=
  match decide_backup i snapshots today cc cs with
  | some Decision.creating => some i.name
  | _ => none

/-- Status values returned by `zoneOperations().get`. -/
inductive OpStatus where
  | RUNNING
  | DONE
  | ERROR
deriving DecidableEq, Repr

/-- The polling loop of `create_snapshot`, fuel-bounded: poll the operation
status; the loop breaks only on `DONE`, every other status (including
`ERROR`) is followed by a 5 second sleep and another poll.  `some k` means
the loop ended after `k` polls; `none` means it was still polling when the
fuel ran out. -/
def create_snapshot_loop (status : Nat → OpStatus) : Nat → Nat → Option Nat
  | 0, _ => none
  | fuel + 1, polls =>
    if status polls = OpStatus.DONE then some (polls + 1)
    else create_snapshot_loop status fuel (polls + 1)

/-- `BackupManager.create_snapshot`, abstracted over the stream of statuses
the gateway reports on successive polls. -/
def create_snapshot (status : Nat → OpStatus) (fuel : Nat) : Option Nat :=
  create_snapshot_loop status fuel 0

/-- A status stream whose first poll reports `ERROR` and whose later polls
report `DONE`. -/
def errStream : Nat → OpStatus := fun n => if n = 0 then OpStatus.ERROR else OpStatus.DONE

/-! ### Order facts about Python string comparison -/

theorem listLt_irrefl (l : List Char) : listLt l l = false := by
  induction l with
  | nil => rfl
  | cons a t ih => simp [listLt, ih]

theorem char_eq_of_toNat_eq {x y : Char} (h : x.toNat = y.toNat) : x = y :=
  Char.eq_of_val_eq (UInt32.ext h)

theorem listLt_trans {a b c : List Char} (hab : listLt a b = true)
    (hbc : listLt b c = true) : listLt a c = true := by
  induction a generalizing b c with
  | nil =>
    cases c with
    | nil =>
      cases b with
      | nil => exact hbc
      | cons y bs => simp [listLt] at hbc
    | cons z cs => simp [listLt]
  | cons x as ih =>
    cases b with
    | nil => simp [listLt] at hab
    | cons y bs =>
      cases c with
      | nil => simp [listLt] at hbc
      | cons z cs =>
        simp only [listLt] at hab hbc ⊢
        by_cases hxy : x.toNat < y.toNat
        · by_cases hyz : y.toNat < z.toNat
          · simp [Nat.lt_trans hxy hyz]
          · by_cases hzy : z.toNat < y.toNat
            · simp [hyz, hzy] at hbc
            · have hyz2 : y.toNat = z.toNat :=
                Nat.le_antisymm (Nat.le_of_not_lt hzy) (Nat.le_of_not_lt hyz)
              rw [hyz2] at hxy
              simp [hxy]
        · by_cases hyx : y.toNat < x.toNat
          · simp [hxy, hyx] at hab
          · have hxy2 : x.toNat = y.toNat :=
              Nat.le_antisymm (Nat.le_of_not_lt hyx) (Nat.le_of_not_lt hxy)
            simp only [if_neg hxy, if_neg hyx] at hab
            by_cases hyz : y.toNat < z.toNat
            · rw [← hxy2] at hyz
              simp [hyz]
            · by_cases hzy : z.toNat < y.toNat
              · simp [hyz, hzy] at hbc
              · simp only [if_neg hyz, if_neg hzy] at hbc
                rw [← hxy2] at hyz hzy
                simp [if_neg hyz, if_neg hzy, ih hab hbc]

theorem listLt_antisymm {a b : List Char} (hab : listLt a b = false)
    (hba : listLt b a = false) : a = b := by
  induction a generalizing b with
  | nil =>
    cases b with
    | nil => rfl
    | cons y bs => simp [listLt] at hab
  | cons x as ih =>
    cases b with
    | nil => simp [listLt] at hba
    | cons y bs =>
      simp only [listLt] at hab hba
      by_cases hxy : x.toNat < y.toNat
      · simp [hxy] at hab
      · by_cases hyx : y.toNat < x.toNat
        · simp [hyx, hxy] at hba
        · have hx : x = y := char_eq_of_toNat_eq
            (Nat.le_antisymm (Nat.le_of_not_lt hyx) (Nat.le_of_not_lt hxy))
          simp only [if_neg hxy, if_neg hyx] at hab
          simp only [if_neg hyx, if_neg hxy] at hba
          rw [hx, ih hab hba]

theorem pyLt_irrefl (a : String) : pyLt a a = false := listLt_irrefl a.data

theorem pyLt_trans {a b c : String} (hab : pyLt a b = true) (hbc : pyLt b c = true) :
    pyLt a c = true := listLt_trans hab hbc

theorem pyLt_antisymm {a b : String} (hab : pyLt a b = false) (hba : pyLt b a = false) :
    a = b := by
  cases a with
  | mk da =>
    cases b with
    | mk db => exact congrArg String.mk (listLt_antisymm hab hba)

theorem pyLt_asymm {a b : String} (hab : pyLt a b = true) : pyLt b a = false := by
  by_contra h
  have hba : pyLt b a = true := by
    cases hx : pyLt b a
    · exact absurd hx h
    · rfl
  have : pyLt a a = true := pyLt_trans hab hba
  rw [pyLt_irrefl] at this
  exact Bool.false_ne_true this

theorem pyLt_of_ne {a b : String} (hne : a ≠ b) (h : pyLt b a = false) :
    pyLt a b = true := by
  cases hx : pyLt a b
  · exact absurd (pyLt_antisymm hx h) hne
  · rfl

/-! ### The running maximum computed by get_last_backup_timestamp -/

theorem foldl_latest_spec (l : List String) (t : String) :
    (l.foldl (fun acc x => if pyLt acc x then x else acc) t) ∈ t :: l ∧
      ∀ x ∈ t :: l, pyLt (l.foldl (fun acc x => if pyLt acc x then x else acc) t) x = false := by
  induction l generalizing t with
  | nil =>
    refine ⟨List.mem_singleton.mpr rfl, ?_⟩
    intro x hx
    rw [List.mem_singleton] at hx
    simpa [hx] using pyLt_irrefl t
  | cons y l ih =>
    simp only [List.foldl_cons]
    rcases ih (if pyLt t y then y else t) with ⟨hmem, hmax⟩
    set r := l.foldl (fun acc x => if pyLt acc x then x else acc) (if pyLt t y then y else t) with hr
    have hstep : (if pyLt t y then y else t) ∈ t :: y :: l := by
      by_cases h : pyLt t y = true
      · simp [h]
      · simp [h]
    constructor
    · rcases List.mem_cons.mp hmem with h | h
      · rw [h]
        exact hstep
      · exact List.mem_cons_of_mem _ (List.mem_cons_of_mem _ h)
    · intro x hx
      have hrstep : pyLt r (if pyLt t y then y else t) = false :=
        hmax _ (List.mem_cons_self _ _)
      rcases List.mem_cons.mp hx with h | h
      · rw [h]
        by_cases hty : pyLt t y = true
        · rw [if_pos hty] at hrstep
          cases hrx : pyLt r t
          · rfl
          · have hcon : pyLt r y = true := pyLt_trans hrx hty
            rw [hrstep] at hcon
            exact absurd hcon (by simp)
        · rw [if_neg hty] at hrstep
          exact hrstep
      · rcases List.mem_cons.mp h with h2 | h2
        · rw [h2]
          by_cases hty : pyLt t y = true
          · rw [if_pos hty] at hrstep
            exact hrstep
          · rw [if_neg hty] at hrstep
            have hty2 : pyLt t y = false := Bool.eq_false_iff.mpr hty
            cases hrx : pyLt r y
            · rfl
            · exfalso
              by_cases hre : r = t
              · rw [hre] at hrx
                rw [hty2] at hrx
                exact Bool.false_ne_true hrx
              · have htr : pyLt t r = true := pyLt_of_ne (fun he => hre he.symm) hrstep
                have hcon : pyLt t y = true := pyLt_trans htr hrx
                rw [hty2] at hcon
                exact Bool.false_ne_true hcon
        · exact hmax _ (List.mem_cons_of_mem _ h2)

theorem get_last_backup_timestamp_spec (ts : List String) (h : ts ≠ []) :
    ∃ m, get_last_backup_timestamp ts = some m ∧ m ∈ ts ∧
      ∀ x ∈ ts, pyLt m x = false := by
  cases ts with
  | nil => exact absurd rfl h
  | cons t rest =>
    rcases foldl_latest_spec rest t with ⟨hmem, hmax⟩
    exact ⟨_, rfl, hmem, hmax⟩

theorem get_last_backup_timestamp_perm {ts ts2 : List String} (hp : List.Perm ts ts2) :
    get_last_backup_timestamp ts = get_last_backup_timestamp ts2 := by
  cases ts with
  | nil =>
    have : ts2 = [] := List.Perm.eq_nil hp.symm
    rw [this]
  | cons t rest =>
    have h2 : ts2 ≠ [] := by
      intro he
      rw [he] at hp
      exact List.cons_ne_nil _ _ (List.Perm.eq_nil hp)
    rcases get_last_backup_timestamp_spec (t :: rest) (List.cons_ne_nil _ _) with
      ⟨m1, he1, hm1, hmax1⟩
    rcases get_last_backup_timestamp_spec ts2 h2 with ⟨m2, he2, hm2, hmax2⟩
    rw [he1, he2]
    have hm1m2 : pyLt m1 m2 = false := hmax1 _ (hp.symm.subset hm2)
    have hm2m1 : pyLt m2 m1 = false := hmax2 _ (hp.subset hm1)
    rw [pyLt_antisymm hm2m1 hm1m2]

/-! ### Loops that append, and insertion-ordered dictionaries -/

theorem mem_cmap {l : List α} {f : α → List β} {b : β} :
    b ∈ cmap l f ↔ ∃ a ∈ l, b ∈ f a := by
  induction l with
  | nil => simp [cmap]
  | cons a t ih =>
    simp only [cmap, List.mem_append, ih, List.mem_cons]
    constructor
    · rintro (h | ⟨x, hx, hbx⟩)
      · exact ⟨a, Or.inl rfl, h⟩
      · exact ⟨x, Or.inr hx, hbx⟩
    · rintro ⟨x, hx | hx, hbx⟩
      · exact Or.inl (hx ▸ hbx)
      · exact Or.inr ⟨x, hx, hbx⟩

theorem cmap_eq_nil {l : List α} {f : α → List β} :
    cmap l f = [] ↔ ∀ a ∈ l, f a = [] := by
  induction l with
  | nil => simp [cmap]
  | cons a t ih => simp [cmap, ih]

theorem cmap_filter (l : List α) (p : α → Bool) (g : α → List β) :
    cmap l (fun a => if p a then g a else []) = cmap (l.filter p) g := by
  induction l with
  | nil => rfl
  | cons a t ih =>
    by_cases h : p a = true
    · simp [cmap, h, List.filter_cons, ih]
    · have h2 : p a = false := Bool.eq_false_iff.mpr h
      simp [cmap, h2, List.filter_cons, ih]

theorem dlookup_eq_none {l : List (String × β)} {k : String} :
    dlookup l k = none ↔ k ∉ l.map Prod.fst := by
  induction l with
  | nil => simp [dlookup]
  | cons e t ih =>
    obtain ⟨k2, v⟩ := e
    by_cases h : k2 = k
    · simp [dlookup, h]
    · simp only [dlookup, if_neg h, List.map_cons, List.mem_cons, ih]
      constructor
      · rintro hn (he | hm)
        · exact h he.symm
        · exact hn hm
      · intro hn
        exact fun hm => hn (Or.inr hm)

theorem dlookup_mem {l : List (String × β)} (hnd : (l.map Prod.fst).Nodup)
    {k : String} {v : β} : (k, v) ∈ l ↔ dlookup l k = some v := by
  induction l with
  | nil => simp [dlookup]
  | cons e t ih =>
    obtain ⟨k2, v2⟩ := e
    rw [List.map_cons, List.nodup_cons] at hnd
    by_cases h : k2 = k
    · subst h
      have hd : dlookup ((k2, v2) :: t) k2 = some v2 := by simp [dlookup]
      rw [hd]
      constructor
      · intro hm
        rcases List.mem_cons.mp hm with he | hm2
        · exact congrArg some (congrArg Prod.snd he).symm
        · exact absurd (List.mem_map_of_mem Prod.fst hm2) hnd.1
      · intro he
        have hv : v2 = v := Option.some.inj he
        rw [← hv]
        exact List.mem_cons_self _ _
    · simp only [dlookup, if_neg h, List.mem_cons]
      rw [← ih hnd.2]
      constructor
      · rintro (he | hm)
        · exact absurd (congrArg Prod.fst he).symm h
        · exact hm
      · exact Or.inr

theorem alUpd_keys (l : List (String × β)) (k : String) (f : β → β) (init : β) :
    (alUpd l k f init).map Prod.fst =
      if k ∈ l.map Prod.fst then l.map Prod.fst else l.map Prod.fst ++ [k] := by
  induction l with
  | nil => simp [alUpd]
  | cons e t ih =>
    obtain ⟨k2, v⟩ := e
    by_cases h : k2 = k
    · simp [alUpd, h]
    · have hk : (k ∈ List.map Prod.fst ((k2, v) :: t)) = (k ∈ List.map Prod.fst t) := by
        simp only [List.map_cons, List.mem_cons, eq_iff_iff]
        constructor
        · rintro (he | hm)
          · exact absurd he.symm h
          · exact hm
        · exact Or.inr
      have h2 : ¬ k = k2 := fun he => h he.symm
      by_cases hm : k ∈ List.map Prod.fst t
      · simp [alUpd, h, ih, hm, hk, h2]
      · simp [alUpd, h, ih, hm, hk, h2]

theorem alUpd_nodup {l : List (String × β)} (hnd : (l.map Prod.fst).Nodup)
    (k : String) (f : β → β) (init : β) : ((alUpd l k f init).map Prod.fst).Nodup := by
  rw [alUpd_keys]
  by_cases h : k ∈ l.map Prod.fst
  · rw [if_pos h]
    exact hnd
  · rw [if_neg h]
    rw [← List.concat_eq_append]
    exact List.Nodup.concat h hnd

theorem alUpd_ne_nil (l : List (String × β)) (k : String) (f : β → β) (init : β) :
    alUpd l k f init ≠ [] := by
  cases l with
  | nil => simp [alUpd]
  | cons e t =>
    obtain ⟨k2, v⟩ := e
    by_cases h : k2 = k
    · simp [alUpd, h]
    · simp [alUpd, h]

theorem dlookup_alUpd (l : List (String × β)) (k k2 : String) (f : β → β) (init : β) :
    dlookup (alUpd l k f init) k2 =
      if k2 = k then some (f ((dlookup l k).getD init)) else dlookup l k2 := by
  induction l with
  | nil =>
    by_cases h : k2 = k
    · simp [alUpd, dlookup, h]
    · have h2 : ¬ k = k2 := fun he => h he.symm
      simp [alUpd, dlookup, h, h2]
  | cons e t ih =>
    obtain ⟨k3, v⟩ := e
    by_cases h3 : k3 = k
    · subst h3
      by_cases h2 : k2 = k3
      · subst h2
        simp [alUpd, dlookup]
      · have hne : ¬ k3 = k2 := fun he => h2 he.symm
        simp [alUpd, dlookup, hne, h2]
    · by_cases h2 : k2 = k
      · subst h2
        simp [alUpd, dlookup, h3, ih]
      · by_cases h32 : k3 = k2
        · simp [alUpd, dlookup, h3, h32, h2]
        · simp [alUpd, dlookup, h3, h32, h2, ih]

theorem mem_alUpd {l : List (String × β)} (hnd : (l.map Prod.fst).Nodup)
    {k2 : String} {v2 : β} {k : String} {f : β → β} {init : β} :
    (k2, v2) ∈ alUpd l k f init ↔
      (k2 ≠ k ∧ (k2, v2) ∈ l) ∨ (k2 = k ∧ v2 = f ((dlookup l k).getD init)) := by
  rw [dlookup_mem (alUpd_nodup hnd k f init), dlookup_alUpd]
  by_cases h : k2 = k
  · rw [if_pos h]
    subst h
    constructor
    · intro he
      exact Or.inr ⟨rfl, (Option.some.inj he).symm⟩
    · rintro (⟨hne, _⟩ | ⟨_, he⟩)
      · exact absurd rfl hne
      · exact congrArg some he.symm
  · rw [if_neg h]
    rw [← dlookup_mem hnd]
    constructor
    · intro hm
      exact Or.inl ⟨h, hm⟩
    · rintro (⟨_, hm⟩ | ⟨he, _⟩)
      · exact hm
      · exact absurd he h

/-! ### What the constructed disk index contains -/

/-- The bucket contents `construct_disks_snapshots_dict` is meant to build:
the records of the snapshots of `T` on disk `d` created on `date`, in input
order. -/
def bucketOf (T : List Snapshot) (d date : String) : List SnapInfo :=
  (T.filter (fun s => s.sourceDiskId = d ∧ getDate s.creationTimestamp = date)).map snapInfo

/-- The records of the snapshots of `T` on disk `d` whose creation date is
in the `[7, 14)` day window before `today`, in input order. -/
def weekOf (today : String) (T : List Snapshot) (d : String) : List SnapInfo :=
  (T.filter (fun s =>
    s.sourceDiskId = d ∧ weekDate today (getDate s.creationTimestamp) = true)).map snapInfo

theorem weekDate_iff (today date : String) :
    weekDate today date = true ↔
      7 ≤ date_diff today date ∧ date_diff today date < 14 := by
  unfold weekDate
  split_ifs with h7 h14
  · constructor
    · intro h
      exact h.elim
    · intro h
      exact absurd h.1 (by omega)
  · constructor
    · intro _
      exact ⟨by omega, h14⟩
    · intro _
      rfl
  · constructor
    · intro h
      exact h.elim
    · intro h
      exact absurd h.2 h14

theorem bucketOf_append (T : List Snapshot) (s : Snapshot) (d date : String) :
    bucketOf (T ++ [s]) d date =
      bucketOf T d date ++
        (if s.sourceDiskId = d ∧ getDate s.creationTimestamp = date
          then [snapInfo s] else []) := by
  unfold bucketOf
  rw [List.filter_append, List.map_append]
  congr 1
  by_cases h : s.sourceDiskId = d ∧ getDate s.creationTimestamp = date
  · simp [List.filter, h]
  · simp [List.filter, h]

theorem weekOf_append (today : String) (T : List Snapshot) (s : Snapshot) (d : String) :
    weekOf today (T ++ [s]) d =
      weekOf today T d ++
        (if s.sourceDiskId = d ∧ weekDate today (getDate s.creationTimestamp) = true
          then [snapInfo s] else []) := by
  unfold weekOf
  rw [List.filter_append, List.map_append]
  congr 1
  by_cases h : s.sourceDiskId = d ∧ weekDate today (getDate s.creationTimestamp) = true
  · simp [List.filter, h]
  · simp [List.filter, h]

theorem mem_bucketOf {T : List Snapshot} {d date : String} {i : SnapInfo} :
    i ∈ bucketOf T d date ↔
      ∃ s ∈ T, s.sourceDiskId = d ∧ getDate s.creationTimestamp = date ∧ i = snapInfo s := by
  unfold bucketOf
  simp only [List.mem_map, List.mem_filter, decide_eq_true_eq]
  constructor
  · rintro ⟨s, ⟨hs, hd, hdt⟩, he⟩
    exact ⟨s, hs, hd, hdt, he.symm⟩
  · rintro ⟨s, hs, hd, hdt, he⟩
    exact ⟨s, ⟨hs, hd, hdt⟩, he.symm⟩

theorem getDate_of_mem_bucketOf {T : List Snapshot} {d date : String} {i : SnapInfo}
    (h : i ∈ bucketOf T d date) : getDate i.time = date := by
  rcases mem_bucketOf.mp h with ⟨s, _, _, hdt, he⟩
  rw [he]
  exact hdt

theorem week_pool_alUpd (today : String) (m : List (String × List SnapInfo))
    (k : String) (x : SnapInfo) :
    List.Perm (week_pool today (alUpd m k (fun b => b ++ [x]) []))
      (week_pool today m ++ (if weekDate today k then [x] else [])) := by
  induction m with
  | nil =>
    simp only [alUpd, week_pool, cmap]
    by_cases h : weekDate today k
    · simp [h]
    · simp [h]
  | cons e t ih =>
    obtain ⟨k2, b⟩ := e
    by_cases h : k2 = k
    · subst h
      simp only [alUpd, if_pos rfl, week_pool, cmap]
      by_cases hw : weekDate today k2
      · simp only [if_pos hw]
        rw [List.append_assoc, List.append_assoc]
        exact List.Perm.append_left b List.perm_append_comm
      · simp [hw]
    · simp only [alUpd, if_neg h, week_pool, cmap]
      rw [List.append_assoc]
      exact List.Perm.append_left _ ih

/-- Every (disk id, date, record) triple stored anywhere in the index, in
iteration order. -/
def all_entries (ds : DiskIndex) : List (String × String × SnapInfo) :=
  cmap ds (fun e => cmap e.2 (fun e2 => e2.2.map (fun i => (e.1, e2.1, i))))

theorem entries_alUpd (k dt : String) (x : SnapInfo) (m : List (String × List SnapInfo)) :
    List.Perm
      (cmap (alUpd m dt (fun b => b ++ [x]) []) (fun e2 => e2.2.map (fun i => (k, e2.1, i))))
      ((k, dt, x) :: cmap m (fun e2 => e2.2.map (fun i => (k, e2.1, i)))) := by
  induction m with
  | nil => simp [alUpd, cmap]
  | cons e t ih =>
    obtain ⟨dk, b⟩ := e
    by_cases h : dk = dt
    · subst h
      simp only [alUpd, if_pos rfl, cmap]
      rw [List.map_append]
      simp only [List.map_cons, List.map_nil]
      rw [List.append_assoc]
      exact List.perm_middle
    · simp only [alUpd, if_neg h, cmap]
      exact List.Perm.trans (List.Perm.append_left _ ih) List.perm_middle

theorem all_entries_addSnap (ds : DiskIndex) (s : Snapshot) :
    List.Perm (all_entries (addSnap ds s))
      ((s.sourceDiskId, getDate s.creationTimestamp, snapInfo s) :: all_entries ds) := by
  induction ds with
  | nil => simp [addSnap, alUpd, all_entries, cmap]
  | cons e t ih =>
    obtain ⟨k, m⟩ := e
    simp only [addSnap] at ih ⊢
    by_cases h : k = s.sourceDiskId
    · subst h
      simp only [alUpd, if_pos rfl, all_entries, cmap]
      refine List.Perm.trans (List.Perm.append_right _ (entries_alUpd _ _ _ m)) ?_
      rw [List.cons_append]
    · simp only [alUpd, if_neg h, all_entries, cmap]
      exact List.Perm.trans (List.Perm.append_left _ ih) List.perm_middle

theorem all_entries_foldl (S : List Snapshot) :
    ∀ ds : DiskIndex, List.Perm (all_entries (S.foldl addSnap ds))
      (all_entries ds ++
        S.map (fun s => (s.sourceDiskId, getDate s.creationTimestamp, snapInfo s))) := by
  induction S with
  | nil =>
    intro ds
    simp
  | cons s S ih =>
    intro ds
    simp only [List.foldl_cons, List.map_cons]
    refine List.Perm.trans (ih (addSnap ds s)) ?_
    refine List.Perm.trans (List.Perm.append_right _ (all_entries_addSnap ds s)) ?_
    rw [List.cons_append]
    exact List.perm_middle.symm

/-- Structural invariant of the index built by
`construct_disks_snapshots_dict` over the snapshot list `T`: keys are
unique, every stored bucket is exactly `bucketOf`, every nonempty bucket is
present, and each disk's week pool is a permutation of its `[7,14)`-day
snapshots. -/
structure GoodIdx (T : List Snapshot) (ds : DiskIndex) : Prop where
  keysNodup : (ds.map Prod.fst).Nodup
  entriesOk : ∀ e ∈ ds, e.2 ≠ [] ∧ (e.2.map Prod.fst).Nodup ∧
    ∀ e2 ∈ e.2, e2.2 = bucketOf T e.1 e2.1 ∧ e2.2 ≠ []
  complete : ∀ d date, bucketOf T d date ≠ [] →
    ∃ m, (d, m) ∈ ds ∧ (date, bucketOf T d date) ∈ m
  weekOk : ∀ e ∈ ds, ∀ today, List.Perm (week_pool today e.2) (weekOf today T e.1)

theorem good_nil : GoodIdx [] [] := by
  refine ⟨List.nodup_nil, ?_, ?_, ?_⟩
  · intro e he
    exact absurd he (List.not_mem_nil e)
  · intro d date h
    exact absurd rfl h
  · intro e he
    exact absurd he (List.not_mem_nil e)

theorem complete_lookup {T : List Snapshot} {ds : DiskIndex} (hg : GoodIdx T ds)
    (d date : String) (h : bucketOf T d date ≠ []) :
    ∃ m, dlookup ds d = some m ∧ dlookup m date = some (bucketOf T d date) ∧ (d, m) ∈ ds := by
  obtain ⟨m, hm, hdate⟩ := hg.complete d date h
  have h1 : dlookup ds d = some m := (dlookup_mem hg.keysNodup).mp hm
  have hood := hg.entriesOk (d, m) hm
  have h2 : dlookup m date = some (bucketOf T d date) := (dlookup_mem hood.2.1).mp hdate
  exact ⟨m, h1, h2, hm⟩

theorem bucketOf_nil_of_none {T : List Snapshot} {ds : DiskIndex} (hg : GoodIdx T ds)
    {d : String} (date : String) (hnone : dlookup ds d = none) :
    bucketOf T d date = [] := by
  by_contra h
  obtain ⟨m, h1, _, _⟩ := complete_lookup hg d date h
  rw [hnone] at h1
  exact Option.noConfusion h1

theorem bucketOf_nil_of_inner_none {T : List Snapshot} {ds : DiskIndex} (hg : GoodIdx T ds)
    {d date : String} {m : List (String × List SnapInfo)}
    (hsome : dlookup ds d = some m) (hnone : dlookup m date = none) :
    bucketOf T d date = [] := by
  by_contra h
  obtain ⟨m1, h1, h2, _⟩ := complete_lookup hg d date h
  rw [hsome] at h1
  obtain rfl : m = m1 := Option.some.inj h1
  rw [hnone] at h2
  exact Option.noConfusion h2

theorem getD_bucket {T : List Snapshot} {ds : DiskIndex} (hg : GoodIdx T ds)
    (d date : String) :
    (dlookup ((dlookup ds d).getD []) date).getD [] = bucketOf T d date := by
  cases hds : dlookup ds d with
  | none =>
    have hb : bucketOf T d date = [] := bucketOf_nil_of_none hg date hds
    rw [hb]
    rfl
  | some mOld =>
    have hmem : (d, mOld) ∈ ds := (dlookup_mem hg.keysNodup).mpr hds
    have hood := hg.entriesOk (d, mOld) hmem
    simp only [Option.getD_some]
    cases hmd : dlookup mOld date with
    | none =>
      have hb : bucketOf T d date = [] := bucketOf_nil_of_inner_none hg hds hmd
      rw [hb]
      rfl
    | some bb =>
      have hbm : (date, bb) ∈ mOld := (dlookup_mem hood.2.1).mpr hmd
      have h3 := (hood.2.2 (date, bb) hbm).1
      simpa using h3

theorem weekOf_nil_of_none {T : List Snapshot} {ds : DiskIndex} (hg : GoodIdx T ds)
    {d : String} (today : String) (hnone : dlookup ds d = none) :
    weekOf today T d = [] := by
  unfold weekOf
  rw [List.map_eq_nil_iff]
  rw [List.filter_eq_nil_iff]
  intro s hs
  intro hcon
  rw [decide_eq_true_eq] at hcon
  have hb : bucketOf T d (getDate s.creationTimestamp) ≠ [] := by
    have : snapInfo s ∈ bucketOf T d (getDate s.creationTimestamp) :=
      mem_bucketOf.mpr ⟨s, hs, hcon.1, rfl, rfl⟩
    exact List.ne_nil_of_mem this
  exact absurd (bucketOf_nil_of_none hg (getDate s.creationTimestamp) hnone) hb

theorem good_step {T : List Snapshot} {ds : DiskIndex} (hg : GoodIdx T ds) (s : Snapshot) :
    GoodIdx (T ++ [s]) (addSnap ds s) := by
  have hb0 : (dlookup ((dlookup ds s.sourceDiskId).getD []) (getDate s.creationTimestamp)).getD []
      = bucketOf T s.sourceDiskId (getDate s.creationTimestamp) :=
    getD_bucket hg s.sourceDiskId (getDate s.creationTimestamp)
  have hm0nodup : ((((dlookup ds s.sourceDiskId).getD []) : List (String × List SnapInfo)).map
      Prod.fst).Nodup := by
    cases hds : dlookup ds s.sourceDiskId with
    | none => exact List.nodup_nil
    | some mOld =>
      have hmem : (s.sourceDiskId, mOld) ∈ ds := (dlookup_mem hg.keysNodup).mpr hds
      exact (hg.entriesOk (s.sourceDiskId, mOld) hmem).2.1
  have hout : ∀ {d : String} {m : List (String × List SnapInfo)},
      (d, m) ∈ addSnap ds s ↔
        (d ≠ s.sourceDiskId ∧ (d, m) ∈ ds) ∨
        (d = s.sourceDiskId ∧
          m = alUpd ((dlookup ds s.sourceDiskId).getD []) (getDate s.creationTimestamp)
            (fun b => b ++ [snapInfo s]) []) := by
    intro d m
    exact mem_alUpd hg.keysNodup
  have hinner : ∀ {date : String} {b : List SnapInfo},
      (date, b) ∈ alUpd ((dlookup ds s.sourceDiskId).getD []) (getDate s.creationTimestamp)
          (fun b => b ++ [snapInfo s]) [] ↔
        (date ≠ getDate s.creationTimestamp ∧
          (date, b) ∈ ((dlookup ds s.sourceDiskId).getD [] : List (String × List SnapInfo))) ∨
        (date = getDate s.creationTimestamp ∧
          b = bucketOf T s.sourceDiskId (getDate s.creationTimestamp) ++ [snapInfo s]) := by
    intro date b
    rw [mem_alUpd hm0nodup, hb0]
  refine ⟨?_, ?_, ?_, ?_⟩
  · exact alUpd_nodup hg.keysNodup _ _ _
  · rintro ⟨d, m⟩ he
    rcases hout.mp he with ⟨hne, hold⟩ | ⟨rfl, rfl⟩
    · have hood := hg.entriesOk (d, m) hold
      refine ⟨hood.1, hood.2.1, ?_⟩
      rintro ⟨date, b⟩ he2
      have h2 := hood.2.2 (date, b) he2
      constructor
      · rw [h2.1, bucketOf_append]
        have : ¬ (s.sourceDiskId = d ∧ getDate s.creationTimestamp = date) := by
          rintro ⟨hc, _⟩
          exact hne hc.symm
        rw [if_neg this, List.append_nil]
      · exact h2.2
    · refine ⟨alUpd_ne_nil _ _ _ _, alUpd_nodup hm0nodup _ _ _, ?_⟩
      rintro ⟨date, b⟩ he2
      rcases hinner.mp he2 with ⟨hne, hold⟩ | ⟨rfl, rfl⟩
      · cases hds : dlookup ds s.sourceDiskId with
        | none =>
          rw [hds] at hold
          exact absurd hold (List.not_mem_nil _)
        | some mOld =>
          rw [hds] at hold
          have hmem : (s.sourceDiskId, mOld) ∈ ds := (dlookup_mem hg.keysNodup).mpr hds
          have h2 := (hg.entriesOk (s.sourceDiskId, mOld) hmem).2.2 (date, b) hold
          constructor
          · rw [h2.1, bucketOf_append]
            have : ¬ (s.sourceDiskId = s.sourceDiskId ∧ getDate s.creationTimestamp = date) := by
              rintro ⟨_, hc⟩
              exact hne hc.symm
            rw [if_neg this, List.append_nil]
          · exact h2.2
      · constructor
        · rw [bucketOf_append, if_pos ⟨rfl, rfl⟩]
        · simp
  · intro d date h
    by_cases hcond : s.sourceDiskId = d ∧ getDate s.creationTimestamp = date
    · obtain ⟨rfl, rfl⟩ := hcond
      refine ⟨alUpd ((dlookup ds s.sourceDiskId).getD []) (getDate s.creationTimestamp)
        (fun b => b ++ [snapInfo s]) [], hout.mpr (Or.inr ⟨rfl, rfl⟩), ?_⟩
      refine hinner.mpr (Or.inr ⟨rfl, ?_⟩)
      rw [bucketOf_append, if_pos ⟨rfl, rfl⟩]
    · rw [bucketOf_append, if_neg hcond, List.append_nil] at h ⊢
      obtain ⟨m, hm, hdate⟩ := hg.complete d date h
      by_cases hdd : d = s.sourceDiskId
      · have hds : dlookup ds s.sourceDiskId = some m := by
          rw [← hdd]
          exact (dlookup_mem hg.keysNodup).mp hm
        refine ⟨alUpd ((dlookup ds s.sourceDiskId).getD []) (getDate s.creationTimestamp)
          (fun b => b ++ [snapInfo s]) [], hout.mpr (Or.inr ⟨hdd, rfl⟩), ?_⟩
        refine hinner.mpr (Or.inl ⟨?_, ?_⟩)
        · intro hc
          exact hcond ⟨hdd.symm, hc.symm⟩
        · simp only [hds, Option.getD_some]
          exact hdate
      · exact ⟨m, hout.mpr (Or.inl ⟨hdd, hm⟩), hdate⟩
  · rintro ⟨d, m⟩ he today
    rcases hout.mp he with ⟨hne, hold⟩ | ⟨rfl, rfl⟩
    · have hw := hg.weekOk (d, m) hold today
      rw [weekOf_append]
      have : ¬ (s.sourceDiskId = d ∧ weekDate today (getDate s.creationTimestamp) = true) := by
        rintro ⟨hc, _⟩
        exact hne hc.symm
      rw [if_neg this, List.append_nil]
      exact hw
    · have hstep := week_pool_alUpd today ((dlookup ds s.sourceDiskId).getD [])
        (getDate s.creationTimestamp) (snapInfo s)
      have hbase : List.Perm (week_pool today ((dlookup ds s.sourceDiskId).getD []))
          (weekOf today T s.sourceDiskId) := by
        cases hds : dlookup ds s.sourceDiskId with
        | none =>
          rw [weekOf_nil_of_none hg today hds]
          exact List.Perm.refl _
        | some mOld =>
          have hmem : (s.sourceDiskId, mOld) ∈ ds := (dlookup_mem hg.keysNodup).mpr hds
          exact hg.weekOk (s.sourceDiskId, mOld) hmem today
      refine List.Perm.trans hstep ?_
      rw [weekOf_append]
      have hsel : (if s.sourceDiskId = s.sourceDiskId ∧
            weekDate today (getDate s.creationTimestamp) = true then [snapInfo s] else []) =
          (if weekDate today (getDate s.creationTimestamp) then [snapInfo s] else []) := by
        by_cases hw : weekDate today (getDate s.creationTimestamp) = true
        · rw [if_pos ⟨rfl, hw⟩, if_pos hw]
        · rw [if_neg (fun hc => hw hc.2), if_neg hw]
      rw [hsel]
      exact List.Perm.append_right _ hbase

theorem good_foldl (S : List Snapshot) :
    ∀ (T : List Snapshot) (ds : DiskIndex), GoodIdx T ds →
      GoodIdx (T ++ S) (S.foldl addSnap ds) := by
  induction S with
  | nil =>
    intro T ds hg
    simpa using hg
  | cons s S ih =>
    intro T ds hg
    have := ih (T ++ [s]) (addSnap ds s) (good_step hg s)
    simpa [List.append_assoc] using this

theorem good_construct (S : List Snapshot) :
    GoodIdx S (construct_disks_snapshots_dict S) := by
  have := good_foldl S [] [] good_nil
  simpa [construct_disks_snapshots_dict] using this

/-! ### Facts about delete_older_backups and the retention selectors -/

theorem delete_older_spec (backups : List SnapInfo) (h : backups ≠ []) :
    ∃ mx, get_last_backup_timestamp (backups.map (fun b => b.time)) = some mx ∧
      mx ∈ backups.map (fun b => b.time) ∧
      (∀ b ∈ backups, pyLt mx b.time = false) ∧
      delete_older_backups backups = backups.filter (fun b => pyLt b.time mx) := by
  have hmap : backups.map (fun b => b.time) ≠ [] := by
    intro he
    exact h (List.map_eq_nil_iff.mp he)
  obtain ⟨mx, he, hmem, hmax⟩ := get_last_backup_timestamp_spec _ hmap
  refine ⟨mx, he, hmem, ?_, ?_⟩
  · intro b hb
    exact hmax _ (List.mem_map_of_mem _ hb)
  · unfold delete_older_backups
    rw [he]

theorem mem_delete_older {backups : List SnapInfo} {i : SnapInfo}
    (h : i ∈ delete_older_backups backups) : i ∈ backups := by
  unfold delete_older_backups at h
  cases hgl : get_last_backup_timestamp (backups.map (fun b => b.time)) with
  | none =>
    rw [hgl] at h
    exact absurd h (List.not_mem_nil i)
  | some m =>
    rw [hgl] at h
    exact List.mem_of_mem_filter h

theorem delete_older_const {backups : List SnapInfo} {c : String}
    (h : ∀ b ∈ backups, b.time = c) : delete_older_backups backups = [] := by
  cases hbk : backups with
  | nil => rfl
  | cons b rest =>
    rw [← hbk]
    obtain ⟨mx, he, hmem, hmax, hchar⟩ := delete_older_spec backups (by rw [hbk]; exact List.cons_ne_nil _ _)
    have hmx : mx = c := by
      rcases List.mem_map.mp hmem with ⟨b2, hb2, hbe⟩
      rw [← hbe]
      exact h b2 hb2
    rw [hchar, List.filter_eq_nil_iff]
    intro b2 hb2
    rw [h b2 hb2, hmx]
    simp [pyLt_irrefl]

theorem filter_length_lt_of_mem {p : α → Bool} {l : List α} {b : α}
    (hb : b ∈ l) (hpb : p b = false) : (l.filter p).length < l.length := by
  induction l with
  | nil => exact absurd hb (List.not_mem_nil b)
  | cons a t ih =>
    rcases List.mem_cons.mp hb with rfl | hbt
    · rw [List.filter_cons, if_neg (by rw [hpb]; exact Bool.false_ne_true)]
      exact Nat.lt_succ_of_le (List.length_filter_le p t)
    · cases hpa : p a
      · rw [List.filter_cons, if_neg (by rw [hpa]; exact Bool.false_ne_true)]
        exact Nat.lt_succ_of_lt (ih hbt)
      · rw [List.filter_cons, if_pos hpa]
        exact Nat.succ_lt_succ (ih hbt)

theorem delete_older_length_lt (backups : List SnapInfo) (h : backups ≠ []) :
    (delete_older_backups backups).length < backups.length := by
  obtain ⟨mx, he, hmem, hmax, hchar⟩ := delete_older_spec backups h
  rcases List.mem_map.mp hmem with ⟨b, hb, hbe⟩
  rw [hchar]
  refine filter_length_lt_of_mem hb ?_
  show pyLt b.time mx = false
  rw [hbe]
  exact pyLt_irrefl mx

theorem delete_older_length_le (backups : List SnapInfo) :
    (delete_older_backups backups).length ≤ backups.length := by
  cases hbk : backups with
  | nil => rw [show delete_older_backups [] = [] from rfl]
  | cons b rest =>
    rw [← hbk]
    exact Nat.le_of_lt (delete_older_length_lt backups (by rw [hbk]; exact List.cons_ne_nil _ _))

theorem not_mem_delete_older_of_max {backups : List SnapInfo} {i : SnapInfo} {mx : String}
    (he : get_last_backup_timestamp (backups.map (fun b => b.time)) = some mx)
    (hit : i.time = mx) : i ∉ delete_older_backups backups := by
  unfold delete_older_backups
  rw [he]
  intro hmem
  have hp := List.of_mem_filter hmem
  rw [hit, pyLt_irrefl] at hp
  exact Bool.false_ne_true hp

theorem mem_delete_older_of_lt {backups : List SnapInfo} {i : SnapInfo} {mx : String}
    (he : get_last_backup_timestamp (backups.map (fun b => b.time)) = some mx)
    (hi : i ∈ backups) (hlt : pyLt i.time mx = true) :
    i ∈ delete_older_backups backups := by
  unfold delete_older_backups
  rw [he]
  exact List.mem_filter.mpr ⟨hi, hlt⟩

theorem time_lt_iff_ne {i : SnapInfo} {mx : String} (hmax : pyLt mx i.time = false) :
    pyLt i.time mx = true ↔ i.time ≠ mx := by
  constructor
  · intro h he
    rw [he, pyLt_irrefl] at h
    exact Bool.false_ne_true h
  · intro hne
    exact pyLt_of_ne hne hmax

theorem day_rule_subset {today date : String} {b : List SnapInfo} {i : SnapInfo}
    (h : i ∈ day_rule today date b) :
    date_diff today date < 7 ∧ 1 < b.length ∧ i ∈ delete_older_backups b := by
  unfold day_rule at h
  split_ifs at h with h7 hlen
  · exact ⟨h7, hlen, h⟩
  · exact absurd h (List.not_mem_nil i)
  · exact absurd h (List.not_mem_nil i)

theorem mem_week_pool {today : String} {m : List (String × List SnapInfo)} {i : SnapInfo} :
    i ∈ week_pool today m ↔ ∃ e ∈ m, weekDate today e.1 = true ∧ i ∈ e.2 := by
  unfold week_pool
  rw [mem_cmap]
  constructor
  · rintro ⟨e, he, hi⟩
    by_cases hw : weekDate today e.1 = true
    · rw [if_pos hw] at hi
      exact ⟨e, he, hw, hi⟩
    · rw [if_neg hw] at hi
      exact absurd hi (List.not_mem_nil i)
  · rintro ⟨e, he, hw, hi⟩
    exact ⟨e, he, by rw [if_pos hw]; exact hi⟩

theorem mem_disk_deletions {today : String} {m : List (String × List SnapInfo)} {i : SnapInfo} :
    i ∈ disk_deletions today m ↔
      (∃ e ∈ m, i ∈ day_rule today e.1 e.2) ∨
      (1 < (week_pool today m).length ∧ i ∈ delete_older_backups (week_pool today m)) := by
  unfold disk_deletions
  rw [List.mem_append, mem_cmap]
  constructor
  · rintro (h | h)
    · exact Or.inl h
    · by_cases hlen : (week_pool today m).length > 1
      · rw [if_pos hlen] at h
        exact Or.inr ⟨hlen, h⟩
      · rw [if_neg hlen] at h
        exact absurd h (List.not_mem_nil i)
  · rintro (h | ⟨hlen, h⟩)
    · exact Or.inl h
    · exact Or.inr (by rw [if_pos hlen]; exact h)

theorem entry_bucket {S : List Snapshot} {d : String} {m : List (String × List SnapInfo)}
    (hm : (d, m) ∈ construct_disks_snapshots_dict S) {e : String × List SnapInfo}
    (he : e ∈ m) : e.2 = bucketOf S d e.1 ∧ e.2 ≠ [] :=
  ((good_construct S).entriesOk (d, m) hm).2.2 e he

theorem weekDate_false_of_lt7 (today date : String) (h : date_diff today date < 7) :
    weekDate today date = false := by
  unfold weekDate
  rw [if_pos h]

theorem pool_member_weekDate {today : String} {S : List Snapshot} {d : String}
    {m : List (String × List SnapInfo)} (hm : (d, m) ∈ construct_disks_snapshots_dict S)
    {i : SnapInfo} (hi : i ∈ week_pool today m) :
    weekDate today (getDate i.time) = true := by
  rcases mem_week_pool.mp hi with ⟨e, he, hw, hie⟩
  have hbk := entry_bucket hm he
  rw [hbk.1] at hie
  rw [getDate_of_mem_bucketOf hie]
  exact hw

theorem not_in_other_day_rules {today : String} {S : List Snapshot} {d : String}
    {m : List (String × List SnapInfo)} (hm : (d, m) ∈ construct_disks_snapshots_dict S)
    {i : SnapInfo} {date : String} (hdate : getDate i.time = date) :
    ∀ e ∈ m, e.1 ≠ date → i ∉ day_rule today e.1 e.2 := by
  intro e he hne hcon
  obtain ⟨_, _, hdel⟩ := day_rule_subset hcon
  have hie : i ∈ e.2 := mem_delete_older hdel
  have hbk := entry_bucket hm he
  rw [hbk.1] at hie
  have hd2 : getDate i.time = e.1 := getDate_of_mem_bucketOf hie
  apply hne
  rw [← hd2, hdate]

theorem week_member_not_day {today : String} {S : List Snapshot} {d : String}
    {m : List (String × List SnapInfo)} (hm : (d, m) ∈ construct_disks_snapshots_dict S)
    {i : SnapInfo} (hw : weekDate today (getDate i.time) = true) :
    ∀ e ∈ m, i ∉ day_rule today e.1 e.2 := by
  intro e he hcon
  obtain ⟨h7, _, hdel⟩ := day_rule_subset hcon
  have hie : i ∈ e.2 := mem_delete_older hdel
  have hbk := entry_bucket hm he
  rw [hbk.1] at hie
  have hd2 : getDate i.time = e.1 := getDate_of_mem_bucketOf hie
  rw [hd2, weekDate_false_of_lt7 today e.1 h7] at hw
  exact Bool.false_ne_true hw

theorem day_member_not_pool {today : String} {S : List Snapshot} {d : String}
    {m : List (String × List SnapInfo)} (hm : (d, m) ∈ construct_disks_snapshots_dict S)
    {i : SnapInfo} {date : String} (hdate : getDate i.time = date)
    (h7 : date_diff today date < 7) : i ∉ week_pool today m := by
  intro hcon
  have hw := pool_member_weekDate hm hcon
  rw [hdate, weekDate_false_of_lt7 today date h7] at hw
  exact Bool.false_ne_true hw

/-! ### The scheduling loop of manage_snapshot -/

/-- The value of the `self.task` slot after a run of launches: each launch
overwrites the slot with the newest task. -/
def final_task (l : List String) (t : Option String) : Option String :=
  l.foldl (fun _ n => some n) t

theorem snapshot_loop_spec (snapshots : List Snapshot) (today : String) (cc cs : Bool) :
    ∀ (instances : List Instance) (task : Option String),
      (∀ i ∈ instances, decide_backup i snapshots today cc cs ≠ none) →
      snapshot_loop snapshots today cc cs instances task =
        some (instances.filterMap (creating_name snapshots today cc cs),
          final_task (instances.filterMap (creating_name snapshots today cc cs)) task) := by
  intro instances
  induction instances with
  | nil =>
    intro task _
    rfl
  | cons i rest ih =>
    intro task h
    have hi := h i (List.mem_cons_self _ _)
    have hrest : ∀ j ∈ rest, decide_backup j snapshots today cc cs ≠ none :=
      fun j hj => h j (List.mem_cons_of_mem _ hj)
    cases hd : decide_backup i snapshots today cc cs with
    | none => exact absurd hd hi
    | some dec =>
      cases dec with
      | creating =>
        have hcn : creating_name snapshots today cc cs i = some i.name := by
          simp only [creating_name, hd]
        simp only [snapshot_loop, hd]
        rw [ih (some i.name) hrest, List.filterMap_cons, hcn]
        rfl
      | skipped =>
        have hcn : creating_name snapshots today cc cs i = none := by
          simp only [creating_name, hd]
        simp only [snapshot_loop, hd]
        rw [ih task hrest, List.filterMap_cons, hcn]
      | notApplicable =>
        have hcn : creating_name snapshots today cc cs i = none := by
          simp only [creating_name, hd]
        simp only [snapshot_loop, hd]
        rw [ih task hrest, List.filterMap_cons, hcn]

theorem manage_snapshot_spec (instances : List Instance) (snapshots : List Snapshot)
    (today : String) (cc cs : Bool)
    (h : ∀ i ∈ instances, decide_backup i snapshots today cc cs ≠ none) :
    manage_snapshot instances snapshots today cc cs =
      some ⟨instances.filterMap (creating_name snapshots today cc cs),
        (final_task (instances.filterMap (creating_name snapshots today cc cs)) none).toList⟩ := by
  unfold manage_snapshot
  rw [snapshot_loop_spec snapshots today cc cs instances none h]

/-! ### The polling loop of create_snapshot -/

theorem create_snapshot_loop_spec (status : Nat → OpStatus) :
    ∀ (fuel polls k : Nat), status (polls + k) = OpStatus.DONE →
      (∀ j, j < k → status (polls + j) ≠ OpStatus.DONE) → k < fuel →
      create_snapshot_loop status fuel polls = some (polls + k + 1) := by
  intro fuel
  induction fuel with
  | zero =>
    intro polls k _ _ hf
    exact absurd hf (Nat.not_lt_zero k)
  | succ fuel ih =>
    intro polls k hk hb hf
    cases k with
    | zero =>
      simp only [create_snapshot_loop]
      rw [if_pos (by simpa using hk)]
    | succ k2 =>
      have h0 : ¬ status polls = OpStatus.DONE := by
        have := hb 0 (Nat.succ_pos k2)
        simpa using this
      simp only [create_snapshot_loop]
      rw [if_neg h0]
      have harith : polls + 1 + k2 = polls + (k2 + 1) := by omega
      have hk2 : status (polls + 1 + k2) = OpStatus.DONE := by
        rw [harith]
        exact hk
      have hb2 : ∀ j, j < k2 → status (polls + 1 + j) ≠ OpStatus.DONE := by
        intro j hj
        have : polls + 1 + j = polls + (j + 1) := by omega
        rw [this]
        exact hb (j + 1) (by omega)
      have := ih (polls + 1) k2 hk2 hb2 (by omega)
      rw [this]
      congr 1
      omega

theorem create_snapshot_loop_none (status : Nat → OpStatus)
    (h : ∀ j, status j ≠ OpStatus.DONE) :
    ∀ fuel polls, create_snapshot_loop status fuel polls = none := by
  intro fuel
  induction fuel with
  | zero =>
    intro polls
    rfl
  | succ fuel ih =>
    intro polls
    simp only [create_snapshot_loop]
    rw [if_neg (h polls)]
    exact ih (polls + 1)

/-! ### Surviving snapshots and second-run buckets -/

theorem entry_unique {m : List (String × β)} (hnd : (m.map Prod.fst).Nodup)
    {e : String × β} (he : e ∈ m) {v : β} (hv : (e.1, v) ∈ m) : e.2 = v := by
  have he2 : (e.1, e.2) ∈ m := by
    rw [Prod.mk.eta]
    exact he
  have h1 : dlookup m e.1 = some e.2 := (dlookup_mem hnd).mp he2
  have h2 : dlookup m e.1 = some v := (dlookup_mem hnd).mp hv
  exact Option.some.inj (h1.symm.trans h2)

theorem filter_map_comm (l : List Snapshot) (Q : SnapInfo → Bool) :
    (l.filter (fun s => Q (snapInfo s))).map snapInfo = (l.map snapInfo).filter Q := by
  induction l with
  | nil => rfl
  | cons s t ih =>
    cases hq : Q (snapInfo s)
    · simp [List.filter_cons, hq, ih]
    · simp [List.filter_cons, hq, ih]

theorem bucketOf_surviving (today : String) (S : List Snapshot) (d date : String) :
    bucketOf (surviving today S) d date =
      (bucketOf S d date).filter
        (fun i => ¬ (apply_retention_policy today S).any (fun j => j.name = i.name)) := by
  unfold surviving bucketOf
  rw [List.filter_comm]
  rw [← filter_map_comm
    (S.filter (fun s => s.sourceDiskId = d ∧ getDate s.creationTimestamp = date))
    (fun i => ¬ (apply_retention_policy today S).any (fun j => j.name = i.name))]
  congr 1

theorem weekOf_surviving (today : String) (S : List Snapshot) (d : String) :
    weekOf today (surviving today S) d =
      (weekOf today S d).filter
        (fun i => ¬ (apply_retention_policy today S).any (fun j => j.name = i.name)) := by
  unfold surviving weekOf
  rw [List.filter_comm]
  rw [← filter_map_comm
    (S.filter (fun s =>
      s.sourceDiskId = d ∧ weekDate today (getDate s.creationTimestamp) = true))
    (fun i => ¬ (apply_retention_policy today S).any (fun j => j.name = i.name))]
  congr 1

theorem deletions_sub_global {today : String} {S : List Snapshot} {d : String}
    {m : List (String × List SnapInfo)} (hm : (d, m) ∈ construct_disks_snapshots_dict S)
    {i : SnapInfo} (hi : i ∈ disk_deletions today m) :
    i ∈ apply_retention_policy today S := by
  unfold apply_retention_policy
  exact mem_cmap.mpr ⟨(d, m), hm, hi⟩

theorem filter_name_excludes {D : List SnapInfo} {i : SnapInfo}
    (hq : decide (¬ D.any (fun j => j.name = i.name)) = true) (hiD : i ∈ D) : False := by
  rw [decide_eq_true_eq] at hq
  exact hq (List.any_eq_true.mpr ⟨i, hiD, by simp⟩)

/-! ### Length bounds for a retention pass -/

theorem day_rule_length_le (today date : String) (b : List SnapInfo) :
    (day_rule today date b).length ≤ b.length := by
  unfold day_rule
  split_ifs
  · exact delete_older_length_le b
  · exact Nat.zero_le _
  · exact Nat.zero_le _

theorem day_week_split (today : String) (m : List (String × List SnapInfo)) :
    (cmap m (fun e => day_rule today e.1 e.2)).length + (week_pool today m).length ≤
      (cmap m (fun e => e.2)).length := by
  induction m with
  | nil => simp [cmap, week_pool]
  | cons e t ih =>
    simp only [week_pool, cmap, List.length_append] at ih ⊢
    have hpoint : (day_rule today e.1 e.2).length +
        (if weekDate today e.1 = true then e.2 else []).length ≤ e.2.length := by
      by_cases hw : weekDate today e.1 = true
      · have h7 : ¬ date_diff today e.1 < 7 := by
          have := (weekDate_iff today e.1).mp hw
          omega
        have hday : day_rule today e.1 e.2 = [] := by
          unfold day_rule
          rw [if_neg h7]
        rw [hday, if_pos hw]
        simp
      · rw [if_neg hw]
        simpa using day_rule_length_le today e.1 e.2
    omega

/-! ### Concrete fixtures used by witnesses and counterexamples -/

/-- A backup-enabled instance. -/
def instA : Instance := ⟨"vm-a", "true"⟩

/-- A second backup-enabled instance. -/
def instB : Instance := ⟨"vm-b", "true"⟩

/-- A snapshot whose creation date is far before the run date, so both
instances decide to create. -/
def staleSnap : Snapshot := ⟨"snap-stale", "99", "disk-a", "2024-01-01T10:00:00.000-08:00"⟩

/-- Two backups of one group, the first one older. -/
def bkOld : SnapInfo := ⟨"snap-old", "100", "2024-06-01T08:00:00.000-08:00"⟩

/-- The newer backup of the group. -/
def bkNew : SnapInfo := ⟨"snap-new", "101", "2024-06-01T09:00:00.000-08:00"⟩

/-- Snapshot fixtures for the latest-timestamp witness. -/
def snapC7a : Snapshot := ⟨"snap-1", "201", "disk-1", "2024-05-30T10:00:00.000-08:00"⟩

/-- The later of the two latest-timestamp witness snapshots. -/
def snapC7b : Snapshot := ⟨"snap-2", "202", "disk-1", "2024-05-31T10:00:00.000-08:00"⟩

/-! ### Claim theorems -/

/-- C1: the spec claims a scheduling run is not declared complete until
every launched supervision task has reached a terminal state.  The code
stores every `asyncio.create_task` handle in the single slot `self.task`,
overwriting the previous one, and finally awaits only that slot: with two
instances both needing a backup, two tasks are launched but only the second
is awaited before the run logs `All snapshots done`. -/
theorem manage_snapshot_awaits_only_last_task :
    ∃ r : SnapshotRun,
      manage_snapshot [instA, instB] [staleSnap] "2024-06-01" false false = some r ∧
      r.launched = ["vm-a", "vm-b"] ∧ r.awaited = ["vm-b"] ∧
      ∃ t ∈ r.launched, t ∉ r.awaited := by
  refine ⟨⟨["vm-a", "vm-b"], ["vm-b"]⟩, by decide, rfl, rfl, "vm-a", by decide, by decide⟩

/-- C2: the spec claims the supervision loop stops polling on `ERROR` and
marks the instance `FAILED`.  The loop in `create_snapshot` breaks only on
`DONE`: on a stream that reports `ERROR` on the first poll and `DONE` on the
second, the loop polls a second time and ends in successful completion, and
on a stream that always reports `ERROR` it never terminates at all (no
failure outcome exists in the code). -/
theorem create_snapshot_polls_past_error :
    (errStream 0 = OpStatus.ERROR ∧ create_snapshot errStream 10 = some 2) ∧
    (∀ fuel, create_snapshot (fun _ => OpStatus.ERROR) fuel = none) := by
  refine ⟨⟨rfl, by decide⟩, ?_⟩
  intro fuel
  unfold create_snapshot
  exact create_snapshot_loop_none _ (fun j hcon => OpStatus.noConfusion hcon) fuel 0

/-- C2 supporting fact: the loop ends exactly at the first `DONE`, no matter
how many `ERROR` (or `RUNNING`) statuses precede it. -/
theorem create_snapshot_stops_at_first_done (status : Nat → OpStatus) (k fuel : Nat)
    (hk : status k = OpStatus.DONE) (hbefore : ∀ j, j < k → status j ≠ OpStatus.DONE)
    (hfuel : k < fuel) : create_snapshot status fuel = some (k + 1) := by
  unfold create_snapshot
  have := create_snapshot_loop_spec status fuel 0 k (by simpa using hk)
    (fun j hj => by simpa using hbefore j hj) hfuel
  simpa using this

/-- Witness for the supporting fact: on `errStream` the first `DONE` is at
poll index 1, so the loop ends after 2 polls. -/
theorem create_snapshot_stops_at_first_done_witness :
    (errStream 1 = OpStatus.DONE ∧ (∀ j, j < 1 → errStream j ≠ OpStatus.DONE) ∧ 1 < 10) ∧
      create_snapshot errStream 10 = some (1 + 1) :=
  ⟨⟨by decide, by decide, by decide⟩,
    create_snapshot_stops_at_first_done errStream 1 10 (by decide) (by decide) (by decide)⟩

/-- C7: on a non-empty snapshot collection `get_last_backup_timestamp`
returns a timestamp of the collection that no member exceeds under Python
string (lexicographic) comparison, and every permutation of the collection
yields the same value. -/
theorem latest_timestamp_is_max (S : List Snapshot) (h : S ≠ []) :
    ∃ mx, get_last_backup_timestamp (S.map (fun s => s.creationTimestamp)) = some mx ∧
      mx ∈ S.map (fun s => s.creationTimestamp) ∧
      (∀ t ∈ S.map (fun s => s.creationTimestamp), pyLt mx t = false) ∧
      (∀ S2 : List Snapshot, List.Perm S S2 →
        get_last_backup_timestamp (S2.map (fun s => s.creationTimestamp)) = some mx) := by
  have hmap : S.map (fun s => s.creationTimestamp) ≠ [] :=
    fun he => h (List.map_eq_nil_iff.mp he)
  obtain ⟨mx, he, hmem, hmax⟩ := get_last_backup_timestamp_spec _ hmap
  refine ⟨mx, he, hmem, hmax, ?_⟩
  intro S2 hp
  rw [← get_last_backup_timestamp_perm (hp.map (fun s => s.creationTimestamp))]
  exact he

/-- Witness for C7 at a concrete two-snapshot collection. -/
theorem latest_timestamp_is_max_witness :
    ([snapC7a, snapC7b] : List Snapshot) ≠ [] ∧
    (∃ mx, get_last_backup_timestamp
        (([snapC7a, snapC7b] : List Snapshot).map (fun s => s.creationTimestamp)) = some mx ∧
      mx ∈ ([snapC7a, snapC7b] : List Snapshot).map (fun s => s.creationTimestamp) ∧
      (∀ t ∈ ([snapC7a, snapC7b] : List Snapshot).map (fun s => s.creationTimestamp),
        pyLt mx t = false) ∧
      (∀ S2 : List Snapshot, List.Perm [snapC7a, snapC7b] S2 →
        get_last_backup_timestamp (S2.map (fun s => s.creationTimestamp)) = some mx)) :=
  ⟨by decide, latest_timestamp_is_max [snapC7a, snapC7b] (by decide)⟩

/-- C8: the index built by `construct_disks_snapshots_dict` partitions the
snapshot list exactly: the stored (disk id, date, record) triples are a
permutation of one triple per input snapshot, each keyed by that snapshot's
own source disk id and creation date, and every input snapshot's triple is
present. -/
theorem index_partitions_snapshots (S : List Snapshot) :
    List.Perm (all_entries (construct_disks_snapshots_dict S))
      (S.map (fun s => (s.sourceDiskId, getDate s.creationTimestamp, snapInfo s))) ∧
    ∀ s ∈ S, (s.sourceDiskId, getDate s.creationTimestamp, snapInfo s) ∈
      all_entries (construct_disks_snapshots_dict S) := by
  have hp := all_entries_foldl S []
  have hp2 : List.Perm (all_entries (construct_disks_snapshots_dict S))
      (S.map (fun s => (s.sourceDiskId, getDate s.creationTimestamp, snapInfo s))) := by
    simpa [construct_disks_snapshots_dict, all_entries, cmap] using hp
  refine ⟨hp2, ?_⟩
  intro s hs
  exact hp2.symm.subset (List.mem_map_of_mem _ hs)

/-- C9 counterexample: the spec claims each deletion is logged before the
delete call.  On a two-backup group the source issues the gateway delete
call first and logs `Deleting snapshot` afterwards: the delete event sits at
an earlier trace position than the log event. -/
theorem delete_log_order_cex :
    delete_older_trace [bkOld, bkNew] =
      [Event.deleteCall "snap-old", Event.logDelete "100"] ∧
    (delete_older_trace [bkOld, bkNew]).indexOf (Event.deleteCall "snap-old") <
      (delete_older_trace [bkOld, bkNew]).indexOf (Event.logDelete "100") := by
  decide

/-- C9 amended: for every snapshot selected for deletion the delete call is
issued to the gateway first, and the log entry with the snapshot identifier
is emitted immediately after it. -/
theorem delete_logged_after_delete_call (backups : List SnapInfo) :
    delete_older_trace backups =
      cmap (delete_older_backups backups)
        (fun b => [Event.deleteCall b.name, Event.logDelete b.id]) := by
  unfold delete_older_trace delete_older_backups
  cases hgl : get_last_backup_timestamp (backups.map (fun b => b.time)) with
  | none => rfl
  | some m => exact cmap_filter backups (fun b => pyLt b.time m) _

/-- C3: for a backup-enabled instance the scheduler takes the latest
timestamp over ALL snapshots known for the project (not only the instance's
own disk), and skips exactly when `(last backup date = today or the
force-skip override is set) and the force-create override is not set`;
otherwise a creation task is launched.  The run's launched-task list
contains exactly the instances whose decision is `creating`, so no gateway
creation call is issued for a skipped instance. -/
theorem backup_decision_rule (instances : List Instance) (inst : Instance)
    (snapshots : List Snapshot) (today : String) (cc cs : Bool)
    (hb : inst.backup = "true") (hs : snapshots ≠ []) :
    ∃ last, get_last_backup_timestamp (snapshots.map (fun s => s.creationTimestamp)) = some last ∧
      last ∈ snapshots.map (fun s => s.creationTimestamp) ∧
      (∀ t ∈ snapshots.map (fun s => s.creationTimestamp), pyLt last t = false) ∧
      decide_backup inst snapshots today cc cs =
        some (if (parse_date (getDate last) = parse_date today ∨ cs = true) ∧ cc = false
          then Decision.skipped else Decision.creating) ∧
      manage_snapshot instances snapshots today cc cs =
        some ⟨instances.filterMap (creating_name snapshots today cc cs),
          (final_task (instances.filterMap (creating_name snapshots today cc cs)) none).toList⟩ := by
  have hmap : snapshots.map (fun s => s.creationTimestamp) ≠ [] :=
    fun he => hs (List.map_eq_nil_iff.mp he)
  obtain ⟨last, he, hmem, hmax⟩ := get_last_backup_timestamp_spec _ hmap
  refine ⟨last, he, hmem, hmax, ?_, ?_⟩
  · unfold decide_backup
    rw [if_pos hb, he]
    show (if (parse_date (getDate last) = parse_date today ∨ cs = true) ∧ cc = false
        then some Decision.skipped else some Decision.creating) =
      some (if (parse_date (getDate last) = parse_date today ∨ cs = true) ∧ cc = false
        then Decision.skipped else Decision.creating)
    by_cases hcond : (parse_date (getDate last) = parse_date today ∨ cs = true) ∧ cc = false
    · rw [if_pos hcond, if_pos hcond]
    · rw [if_neg hcond, if_neg hcond]
  · apply manage_snapshot_spec
    intro i _
    intro hd
    unfold decide_backup at hd
    by_cases hbi : i.backup = "true"
    · rw [if_pos hbi, he] at hd
      revert hd
      show (if (parse_date (getDate last) = parse_date today ∨ cs = true) ∧ cc = false
          then some Decision.skipped else some Decision.creating) = none → False
      split_ifs
      · exact fun hcon => hcon
      · exact fun hcon => hcon
    · rw [if_neg hbi] at hd
      exact Option.noConfusion hd

/-- A backup-enabled instance for the decision-rule witness. -/
def instC3 : Instance := ⟨"vm-1", "true"⟩

/-- A snapshot created the day before the witness run date. -/
def snapC3 : Snapshot := ⟨"snap-y", "301", "disk-1", "2024-05-31T10:00:00.000-08:00"⟩

/-- Witness for C3 at a concrete instance, snapshot collection and date. -/
theorem backup_decision_rule_witness :
    (instC3.backup = "true" ∧ ([snapC3] : List Snapshot) ≠ []) ∧
    (∃ last, get_last_backup_timestamp
        (([snapC3] : List Snapshot).map (fun s => s.creationTimestamp)) = some last ∧
      last ∈ ([snapC3] : List Snapshot).map (fun s => s.creationTimestamp) ∧
      (∀ t ∈ ([snapC3] : List Snapshot).map (fun s => s.creationTimestamp),
        pyLt last t = false) ∧
      decide_backup instC3 [snapC3] "2024-06-01" false false =
        some (if (parse_date (getDate last) = parse_date "2024-06-01" ∨ false = true) ∧
            false = false
          then Decision.skipped else Decision.creating) ∧
      manage_snapshot [instC3] [snapC3] "2024-06-01" false false =
        some ⟨[instC3].filterMap (creating_name [snapC3] "2024-06-01" false false),
          (final_task ([instC3].filterMap (creating_name [snapC3] "2024-06-01" false false))
            none).toList⟩) :=
  ⟨⟨rfl, by decide⟩,
    backup_decision_rule [instC3] instC3 [snapC3] "2024-06-01" false false rfl (by decide)⟩

/-- C4: in a retention run, a calendar-date bucket of a disk whose age is in
`[0, 7)` days and which holds more than one snapshot has exactly its
non-maximum-timestamp members deleted: a member of the bucket is among the
disk's delete calls precisely when its timestamp differs from the bucket
maximum, and each such member is among the delete calls of the whole run. -/
theorem day_bucket_retention_exact (today : String) (S : List Snapshot) (d date : String)
    (m : List (String × List SnapInfo)) (b : List SnapInfo)
    (hm : (d, m) ∈ construct_disks_snapshots_dict S) (hb : (date, b) ∈ m)
    (h0 : 0 ≤ date_diff today date) (h7 : date_diff today date < 7)
    (hlen : 1 < b.length) :
    ∃ mx, get_last_backup_timestamp (b.map (fun i => i.time)) = some mx ∧
      (∀ i ∈ b, (i ∈ disk_deletions today m ↔ i.time ≠ mx)) ∧
      (∀ i ∈ b, i.time ≠ mx → i ∈ apply_retention_policy today S) := by
  have hbne : b ≠ [] := by
    intro hc
    rw [hc] at hlen
    simp at hlen
  obtain ⟨mx, he, hmmem, hmax, hchar⟩ := delete_older_spec b hbne
  have hbk := entry_bucket hm hb
  have hbeq : b = bucketOf S d date := hbk.1
  have hday : day_rule today date b = delete_older_backups b := by
    unfold day_rule
    rw [if_pos h7, if_pos hlen]
  have hnd : (m.map Prod.fst).Nodup := ((good_construct S).entriesOk (d, m) hm).2.1
  have hmemdel : ∀ i ∈ b, i.time ≠ mx → i ∈ disk_deletions today m := by
    intro i hib hne
    have hlt : pyLt i.time mx = true := (time_lt_iff_ne (hmax i hib)).mpr hne
    have hidel : i ∈ delete_older_backups b := mem_delete_older_of_lt he hib hlt
    refine mem_disk_deletions.mpr (Or.inl ⟨(date, b), hb, ?_⟩)
    rw [hday]
    exact hidel
  refine ⟨mx, he, ?_, ?_⟩
  · intro i hib
    have hdate : getDate i.time = date := by
      rw [hbeq] at hib
      exact getDate_of_mem_bucketOf hib
    constructor
    · intro hdel
      rcases mem_disk_deletions.mp hdel with ⟨e, he2, hday2⟩ | ⟨_, hpool⟩
      · by_cases hedate : e.1 = date
        · have hbb : e.2 = b := by
            refine entry_unique hnd he2 ?_
            rw [hedate]
            exact hb
          rw [show e = (e.1, e.2) from (Prod.mk.eta).symm, hedate, hbb] at hday2
          rw [hday] at hday2
          have hlt := List.of_mem_filter (hchar ▸ hday2)
          exact (time_lt_iff_ne (hmax i hib)).mp hlt
        · exact absurd hday2 (not_in_other_day_rules hm hdate e he2 hedate)
      · exact absurd (mem_delete_older hpool) (day_member_not_pool hm hdate h7)
    · exact hmemdel i hib
  · intro i hib hne
    exact deletions_sub_global hm (hmemdel i hib hne)

/-- Disk of the C4 witness bucket. -/
def snapC4a : Snapshot := ⟨"snap-a1", "401", "disk-4", "2024-06-03T08:00:00.000-08:00"⟩

/-- The later snapshot of the C4 witness bucket. -/
def snapC4b : Snapshot := ⟨"snap-a2", "402", "disk-4", "2024-06-03T09:30:00.000-08:00"⟩

/-- Witness for C4: a two-snapshot same-day bucket two days old. -/
theorem day_bucket_retention_exact_witness :
    (("disk-4", [("2024-06-03", [snapInfo snapC4a, snapInfo snapC4b])]) ∈
        construct_disks_snapshots_dict [snapC4a, snapC4b] ∧
      ("2024-06-03", [snapInfo snapC4a, snapInfo snapC4b]) ∈
        [("2024-06-03", [snapInfo snapC4a, snapInfo snapC4b])] ∧
      0 ≤ date_diff "2024-06-05" "2024-06-03" ∧ date_diff "2024-06-05" "2024-06-03" < 7 ∧
      1 < ([snapInfo snapC4a, snapInfo snapC4b] : List SnapInfo).length) ∧
    (∃ mx, get_last_backup_timestamp
        (([snapInfo snapC4a, snapInfo snapC4b] : List SnapInfo).map (fun i => i.time)) = some mx ∧
      (∀ i ∈ ([snapInfo snapC4a, snapInfo snapC4b] : List SnapInfo),
        (i ∈ disk_deletions "2024-06-05" [("2024-06-03", [snapInfo snapC4a, snapInfo snapC4b])] ↔
          i.time ≠ mx)) ∧
      (∀ i ∈ ([snapInfo snapC4a, snapInfo snapC4b] : List SnapInfo), i.time ≠ mx →
        i ∈ apply_retention_policy "2024-06-05" [snapC4a, snapC4b])) :=
  ⟨⟨by decide, by decide, by decide, by decide, by decide⟩,
    day_bucket_retention_exact "2024-06-05" [snapC4a, snapC4b] "disk-4" "2024-06-03"
      [("2024-06-03", [snapInfo snapC4a, snapInfo snapC4b])]
      [snapInfo snapC4a, snapInfo snapC4b]
      (by decide) (by decide) (by decide) (by decide) (by decide)⟩

/-- C5: in a retention run, the cross-date pool built for a disk is (up to
order) exactly the disk's snapshots whose bucket age is in `[7, 14)` days —
snapshots on different dates land in the same pool — and when the pool holds
more than one snapshot, a pool member is among the disk's delete calls
precisely when its timestamp differs from the pool maximum; each such member
is among the delete calls of the whole run. -/
theorem week_pool_retention_exact (today : String) (S : List Snapshot) (d : String)
    (m : List (String × List SnapInfo))
    (hm : (d, m) ∈ construct_disks_snapshots_dict S)
    (hlen : 1 < (week_pool today m).length) :
    List.Perm (week_pool today m) (weekOf today S d) ∧
    ∃ mx, get_last_backup_timestamp ((week_pool today m).map (fun i => i.time)) = some mx ∧
      (∀ i ∈ week_pool today m, (i ∈ disk_deletions today m ↔ i.time ≠ mx)) ∧
      (∀ i ∈ week_pool today m, i.time ≠ mx → i ∈ apply_retention_policy today S) := by
  have hperm := (good_construct S).weekOk (d, m) hm today
  have hpoolne : week_pool today m ≠ [] := by
    intro hc
    rw [hc] at hlen
    simp at hlen
  obtain ⟨mx, he, hmmem, hmax, hchar⟩ := delete_older_spec (week_pool today m) hpoolne
  have hmemdel : ∀ i ∈ week_pool today m, i.time ≠ mx → i ∈ disk_deletions today m := by
    intro i hip hne
    have hlt := (time_lt_iff_ne (hmax i hip)).mpr hne
    exact mem_disk_deletions.mpr (Or.inr ⟨hlen, mem_delete_older_of_lt he hip hlt⟩)
  refine ⟨hperm, mx, he, ?_, ?_⟩
  · intro i hip
    constructor
    · intro hdel
      rcases mem_disk_deletions.mp hdel with ⟨e, he2, hday2⟩ | ⟨_, hpool⟩
      · exact absurd hday2 (week_member_not_day hm (pool_member_weekDate hm hip) e he2)
      · have hlt := List.of_mem_filter (hchar ▸ hpool)
        exact (time_lt_iff_ne (hmax i hip)).mp hlt
    · exact hmemdel i hip
  · intro i hip hne
    exact deletions_sub_global hm (hmemdel i hip hne)

/-- A snapshot 9 days old at the witness run date. -/
def snapC5a : Snapshot := ⟨"snap-w1", "501", "disk-5", "2024-06-03T10:00:00.000-08:00"⟩

/-- A snapshot 11 days old at the witness run date, same disk. -/
def snapC5b : Snapshot := ⟨"snap-w2", "502", "disk-5", "2024-06-01T10:00:00.000-08:00"⟩

/-- The date map `construct_disks_snapshots_dict` builds for disk-5. -/
def poolIdx5 : List (String × List SnapInfo) :=
  [("2024-06-03", [snapInfo snapC5a]), ("2024-06-01", [snapInfo snapC5b])]

/-- Witness for C5: two snapshots of one disk, 9 and 11 days old, in one
pool (scenario E of the spec). -/
theorem week_pool_retention_exact_witness :
    (("disk-5", poolIdx5) ∈ construct_disks_snapshots_dict [snapC5a, snapC5b] ∧
      1 < (week_pool "2024-06-12" poolIdx5).length) ∧
    (List.Perm (week_pool "2024-06-12" poolIdx5)
        (weekOf "2024-06-12" [snapC5a, snapC5b] "disk-5") ∧
      ∃ mx, get_last_backup_timestamp
          ((week_pool "2024-06-12" poolIdx5).map (fun i => i.time)) = some mx ∧
        (∀ i ∈ week_pool "2024-06-12" poolIdx5,
          (i ∈ disk_deletions "2024-06-12" poolIdx5 ↔ i.time ≠ mx)) ∧
        (∀ i ∈ week_pool "2024-06-12" poolIdx5, i.time ≠ mx →
          i ∈ apply_retention_policy "2024-06-12" [snapC5a, snapC5b])) :=
  ⟨⟨by decide, by decide⟩,
    week_pool_retention_exact "2024-06-12" [snapC5a, snapC5b] "disk-5" poolIdx5
      (by decide) (by decide)⟩

/-- C10: deletion candidates are selected by a strict less-than comparison
against the group's latest timestamp, so every snapshot whose timestamp
equals the group maximum is kept (all ties survive), at least one snapshot
survives each `delete_older_backups` pass, and the delete calls a retention
run issues for a disk of the index are strictly fewer than the disk's
snapshots — a run never deletes all snapshots of a disk. -/
theorem strict_less_keeps_latest (backups : List SnapInfo) (today : String)
    (S : List Snapshot) (d : String) (m : List (String × List SnapInfo))
    (hne : backups ≠ []) (hm : (d, m) ∈ construct_disks_snapshots_dict S) :
    (∃ mx, get_last_backup_timestamp (backups.map (fun b => b.time)) = some mx ∧
      delete_older_backups backups = backups.filter (fun b => pyLt b.time mx) ∧
      (∀ b ∈ backups, b.time = mx → b ∉ delete_older_backups backups) ∧
      ∃ b ∈ backups, b ∉ delete_older_backups backups) ∧
    (delete_older_backups backups).length < backups.length ∧
    (disk_deletions today m).length < (cmap m (fun e => e.2)).length := by
  obtain ⟨mx, he, hmmem, hmax, hchar⟩ := delete_older_spec backups hne
  refine ⟨⟨mx, he, hchar, ?_, ?_⟩, delete_older_length_lt backups hne, ?_⟩
  · intro b _ hbt
    exact not_mem_delete_older_of_max he hbt
  · rcases List.mem_map.mp hmmem with ⟨b, hb, hbe⟩
    exact ⟨b, hb, not_mem_delete_older_of_max he hbe⟩
  · have hGm := (good_construct S).entriesOk (d, m) hm
    have hsplit := day_week_split today m
    unfold disk_deletions
    rw [List.length_append]
    by_cases hpool : week_pool today m = []
    · have hlen0 : (week_pool today m).length = 0 := by
        rw [hpool]
        rfl
      have hif : (if (week_pool today m).length > 1
          then delete_older_backups (week_pool today m) else []) = [] := by
        rw [if_neg (by omega)]
      rw [hif]
      simp only [List.length_nil, Nat.add_zero]
      cases m with
      | nil => exact absurd rfl hGm.1
      | cons e0 rest =>
        have he0ne : e0.2 ≠ [] := (hGm.2.2 e0 (List.mem_cons_self _ _)).2
        have hday0 : (day_rule today e0.1 e0.2).length < e0.2.length := by
          unfold day_rule
          split_ifs with h7 hlen7
          · exact delete_older_length_lt e0.2 he0ne
          · simpa using List.length_pos.mpr he0ne
          · simpa using List.length_pos.mpr he0ne
        have hsplitrest := day_week_split today rest
        simp only [cmap, List.length_append]
        omega
    · have hplen : 0 < (week_pool today m).length := List.length_pos.mpr hpool
      by_cases hl : (week_pool today m).length > 1
      · rw [if_pos hl]
        have hdel := delete_older_length_lt (week_pool today m) hpool
        omega
      · rw [if_neg hl]
        simp only [List.length_nil]
        omega

/-- The single snapshot of the C10 witness disk. -/
def snapC10 : Snapshot := ⟨"snap-c", "601", "disk-6", "2024-06-04T10:00:00.000-08:00"⟩

/-- Witness for C10 at a concrete two-backup group and a concrete one-disk
index. -/
theorem strict_less_keeps_latest_witness :
    (([bkOld, bkNew] : List SnapInfo) ≠ [] ∧
      ("disk-6", [("2024-06-04", [snapInfo snapC10])]) ∈
        construct_disks_snapshots_dict [snapC10]) ∧
    ((∃ mx, get_last_backup_timestamp
        (([bkOld, bkNew] : List SnapInfo).map (fun b => b.time)) = some mx ∧
      delete_older_backups [bkOld, bkNew] =
        ([bkOld, bkNew] : List SnapInfo).filter (fun b => pyLt b.time mx) ∧
      (∀ b ∈ ([bkOld, bkNew] : List SnapInfo), b.time = mx →
        b ∉ delete_older_backups [bkOld, bkNew]) ∧
      ∃ b ∈ ([bkOld, bkNew] : List SnapInfo), b ∉ delete_older_backups [bkOld, bkNew]) ∧
    (delete_older_backups [bkOld, bkNew]).length < ([bkOld, bkNew] : List SnapInfo).length ∧
    (disk_deletions "2024-06-05" [("2024-06-04", [snapInfo snapC10])]).length <
      (cmap [("2024-06-04", [snapInfo snapC10])] (fun e => e.2)).length) :=
  ⟨⟨by decide, by decide⟩,
    strict_less_keeps_latest [bkOld, bkNew] "2024-06-05" [snapC10] "disk-6"
      [("2024-06-04", [snapInfo snapC10])] (by decide) (by decide)⟩

/-- C6: with no snapshots created in between and the same date, a second
retention run over what the first run left behind selects nothing for
deletion and issues no delete calls. -/
theorem retention_policy_idempotent (today : String) (S : List Snapshot) :
    apply_retention_policy today (surviving today S) = [] := by
  have hgood2 := good_construct (surviving today S)
  unfold apply_retention_policy
  rw [cmap_eq_nil]
  rintro ⟨d, m2⟩ hm2
  show disk_deletions today m2 = []
  unfold disk_deletions
  rw [List.append_eq_nil]
  constructor
  · rw [cmap_eq_nil]
    rintro ⟨date, b2⟩ hb2
    show day_rule today date b2 = []
    unfold day_rule
    split_ifs with h7 hlen2
    · have hbk2 := entry_bucket hm2 hb2
      have hb2eq : b2 = (bucketOf S d date).filter
          (fun i => ¬ (apply_retention_policy today S).any (fun j => j.name = i.name)) := by
        have h1 : b2 = bucketOf (surviving today S) d date := hbk2.1
        rw [h1, bucketOf_surviving]
      have hlenb : 1 < (bucketOf S d date).length := by
        have hle : b2.length ≤ (bucketOf S d date).length := by
          rw [hb2eq]
          exact List.length_filter_le _ _
        omega
      have hbne : bucketOf S d date ≠ [] := by
        intro hc
        rw [hc] at hlenb
        simp at hlenb
      obtain ⟨m1, hm1, hdate1⟩ := (good_construct S).complete d date hbne
      obtain ⟨mx, he, hmmem, hmax, hchar⟩ := delete_older_spec (bucketOf S d date) hbne
      apply delete_older_const (c := mx)
      intro i hi
      rw [hb2eq] at hi
      have hiQ := List.of_mem_filter hi
      have hib : i ∈ bucketOf S d date := List.mem_of_mem_filter hi
      by_contra hneq
      have hlt : pyLt i.time mx = true := (time_lt_iff_ne (hmax i hib)).mpr hneq
      have hidel : i ∈ delete_older_backups (bucketOf S d date) :=
        mem_delete_older_of_lt he hib hlt
      have hday1 : i ∈ day_rule today date (bucketOf S d date) := by
        unfold day_rule
        rw [if_pos h7, if_pos hlenb]
        exact hidel
      have hiD : i ∈ apply_retention_policy today S :=
        deletions_sub_global hm1
          (mem_disk_deletions.mpr (Or.inl ⟨(date, bucketOf S d date), hdate1, hday1⟩))
      exact filter_name_excludes hiQ hiD
    · rfl
    · rfl
  · by_cases hl2 : (week_pool today m2).length > 1
    · rw [if_pos hl2]
      have hperm2 := hgood2.weekOk (d, m2) hm2 today
      have hq : weekOf today (surviving today S) d = (weekOf today S d).filter
          (fun i => ¬ (apply_retention_policy today S).any (fun j => j.name = i.name)) :=
        weekOf_surviving today S d
      have hpoolne : week_pool today m2 ≠ [] := by
        intro hc
        rw [hc] at hl2
        simp at hl2
      obtain ⟨i0, hi0⟩ := List.exists_mem_of_ne_nil (week_pool today m2) hpoolne
      have hi0w : i0 ∈ weekOf today S d := by
        have h1 := hperm2.subset hi0
        rw [hq] at h1
        exact List.mem_of_mem_filter h1
      obtain ⟨s0, hs0S, hs0d⟩ : ∃ s ∈ S, s.sourceDiskId = d := by
        unfold weekOf at hi0w
        rcases List.mem_map.mp hi0w with ⟨s, hsf, _⟩
        have h2 := List.mem_filter.mp hsf
        refine ⟨s, h2.1, ?_⟩
        have h3 := h2.2
        rw [decide_eq_true_eq] at h3
        exact h3.1
      have hbents : bucketOf S d (getDate s0.creationTimestamp) ≠ [] := by
        have : snapInfo s0 ∈ bucketOf S d (getDate s0.creationTimestamp) :=
          mem_bucketOf.mpr ⟨s0, hs0S, hs0d, rfl, rfl⟩
        exact List.ne_nil_of_mem this
      obtain ⟨m1, hm1, _⟩ := (good_construct S).complete d (getDate s0.creationTimestamp) hbents
      have hperm1 := (good_construct S).weekOk (d, m1) hm1 today
      have hlen1 : 1 < (week_pool today m1).length := by
        have e1 : (week_pool today m2).length =
            ((weekOf today S d).filter
              (fun i => ¬ (apply_retention_policy today S).any
                (fun j => j.name = i.name))).length := by
          rw [hperm2.length_eq, hq]
        have e2 : (week_pool today m1).length = (weekOf today S d).length := hperm1.length_eq
        have e3 := List.length_filter_le
          (fun i => ¬ (apply_retention_policy today S).any (fun j => j.name = i.name))
          (weekOf today S d)
        omega
      have hpool1ne : week_pool today m1 ≠ [] := by
        intro hc
        rw [hc] at hlen1
        simp at hlen1
      obtain ⟨mx, he, hmmem, hmax, hchar⟩ := delete_older_spec (week_pool today m1) hpool1ne
      apply delete_older_const (c := mx)
      intro i hi
      have hifilter : i ∈ (weekOf today S d).filter
          (fun i => ¬ (apply_retention_policy today S).any (fun j => j.name = i.name)) := by
        have h1 := hperm2.subset hi
        rwa [hq] at h1
      have hiQ := List.of_mem_filter hifilter
      have hiw : i ∈ weekOf today S d := List.mem_of_mem_filter hifilter
      have hip1 : i ∈ week_pool today m1 := hperm1.mem_iff.mpr hiw
      by_contra hneq
      have hlt : pyLt i.time mx = true := (time_lt_iff_ne (hmax i hip1)).mpr hneq
      have hidel := mem_delete_older_of_lt he hip1 hlt
      have hiD : i ∈ apply_retention_policy today S :=
        deletions_sub_global hm1 (mem_disk_deletions.mpr (Or.inr ⟨hlen1, hidel⟩))
      exact filter_name_excludes hiQ hiD
    · rw [if_neg hl2]

example : pyLt "2024-01-01T10:00:00.000" "2024-01-02T09:00:00.000" = true := by decide

example : getDate "2024-01-01T10:00:00.000-08:00" = "2024-01-01" := by decide

example : parse_date "2024-01-01" = (2024, 1, 1) := by decide

example : date_diff "2024-03-01" "2024-02-29" = 1 := by decide

example : date_diff "2024-06-05" "2024-06-03" = 2 := by decide
